import Mathlib

/-!
# Verification of the `tablewriter` table-rendering library

Shallow embedding of the Go package `tablewriter` (an ASCII table writer with
headers, label levels, cell alignment, wide-cell truncation/wrapping, and
auto-merging of repeated column values).

Cell text is modelled as `List Char`: the Go code converts strings to `[]rune`
for every width computation and slice, and the unit of width throughout the
package is the code point.  Go's `fmt` verbs `%*s` / `%-*s` pad to a minimum
number of runes, so they are modelled as padding on `List Char`.

Operations that can panic at runtime in Go (negative slice bounds or indices
out of range in `truncate` and `wrap`, unbounded loops) return `Option`:
`none` models a panic / failure to produce a value.
-/

set_option maxRecDepth 10000

namespace Tablewriter

/-- Cell text as a sequence of Unicode code points (Go `[]rune`). -/
abbrev Str := List Char

/-- Go `unicode.IsSpace`: the Unicode White_Space property
(Latin-1 spaces `\t \n \v \f \r ' '` U+0085 U+00A0, plus the
higher-plane white space code points). -/
def goIsSpace (c : Char) : Bool :=
  let n := c.toNat
  n == 0x20 || (decide (0x9 ≤ n) && decide (n ≤ 0xD)) || n == 0x85 || n == 0xA0 ||
  n == 0x1680 || (decide (0x2000 ≤ n) && decide (n ≤ 0x200A)) ||
  n == 0x2028 || n == 0x2029 || n == 0x202F || n == 0x205F || n == 0x3000

/-- Go `strings.TrimLeftFunc(s, unicode.IsSpace)`. -/
def trimLeftSpace (s : Str) : Str := s.dropWhile goIsSpace

/-- `Alignment` configures how text is aligned in a cell
(Go constants `AlignCenter`, `AlignRight`, `AlignLeft`). -/
inductive Alignment where
  | center
  | right
  | left
deriving DecidableEq

/-- The package-level symbol configuration (Go global variables
`borderEdge` … `contentLabelEdge` and `maxColWidth`). -/
structure Config where
  borderEdge : Str
  borderLabelEdge : Str
  borderFiller : Str
  headerEdge : Str
  headerLabelEdge : Str
  headerFiller : Str
  contentEdge : Str
  contentLabelEdge : Str
  maxColWidth : Nat
deriving DecidableEq

/-- Go struct `Defaults` (the argument of `ChangeDefaults`).
`MaxColWidth` is a Go `int`, so it is modelled as `Int`. -/
structure Defaults where
  BorderEdge : Str
  BorderLabelEdge : Str
  BorderFiller : Str
  HeaderEdge : Str
  HeaderLabelEdge : Str
  HeaderFiller : Str
  ContentEdge : Str
  ContentLabelEdge : Str
  MaxColWidth : Int

/-- Go `singleWidthString`: the string is exactly 1 rune wide. -/
def singleWidthString (s : Str) : Bool := s.length == 1

/-- Go `doubleWidthString`: the string is exactly 2 runes wide. -/
def doubleWidthString (s : Str) : Bool := s.length == 2

/-- Go `ChangeDefaults`: update each global symbol only when the supplied
value is valid (1-rune edges and fillers, 2-rune label edges, positive
maximum column width); invalid fields keep the previous value. -/
def changeDefaults (defaults : Defaults) (c : Config) : Config :=
  { borderEdge := if singleWidthString defaults.BorderEdge then defaults.BorderEdge else c.borderEdge
    borderLabelEdge := if doubleWidthString defaults.BorderLabelEdge then defaults.BorderLabelEdge else c.borderLabelEdge
    borderFiller := if singleWidthString defaults.BorderFiller then defaults.BorderFiller else c.borderFiller
    headerEdge := if singleWidthString defaults.HeaderEdge then defaults.HeaderEdge else c.headerEdge
    headerLabelEdge := if doubleWidthString defaults.HeaderLabelEdge then defaults.HeaderLabelEdge else c.headerLabelEdge
    headerFiller := if singleWidthString defaults.HeaderFiller then defaults.HeaderFiller else c.headerFiller
    contentEdge := if singleWidthString defaults.ContentEdge then defaults.ContentEdge else c.contentEdge
    contentLabelEdge := if doubleWidthString defaults.ContentLabelEdge then defaults.ContentLabelEdge else c.contentLabelEdge
    maxColWidth := if 0 < defaults.MaxColWidth then defaults.MaxColWidth.toNat else c.maxColWidth }

/-- The all-zero state of the global configuration before `init` runs
(empty strings, `maxColWidth = 0`). -/
def zeroConfig : Config :=
  { borderEdge := [], borderLabelEdge := [], borderFiller := [],
    headerEdge := [], headerLabelEdge := [], headerFiller := [],
    contentEdge := [], contentLabelEdge := [], maxColWidth := 0 }

/-- Go `resetDefaults` (run by `init`): the library's default symbols. -/
def defaultConfig : Config :=
  changeDefaults
    { BorderEdge := ['+'], BorderLabelEdge := ['+', '+'], BorderFiller := ['-'],
      HeaderEdge := ['|'], HeaderLabelEdge := ['|', '|'], HeaderFiller := ['-'],
      ContentEdge := ['|'], ContentLabelEdge := ['|', '|'], MaxColWidth := 30 }
    zeroConfig

/-- A `Defaults` value every field of which is invalid, so that
`changeDefaults` with it changes nothing except the fields under test. -/
def emptyDefaults : Defaults :=
  { BorderEdge := [], BorderLabelEdge := [], BorderFiller := [],
    HeaderEdge := [], HeaderLabelEdge := [], HeaderFiller := [],
    ContentEdge := [], ContentLabelEdge := [], MaxColWidth := 0 }

/-- Go struct `Table` (the `io.Writer` field is out of scope: the core
produces a string). -/
structure Table where
  rows : List (List Str)
  alignment : Alignment
  numHeaderRows : Nat
  numLabelLevels : Nat
  autoMerge : Bool
  truncateCells : Bool
  autoCenterHeaders : Bool
deriving DecidableEq

/-- Go `NewTable` (minus the writer): the default table. -/
def newTable : Table :=
  { rows := [], alignment := Alignment.center, numHeaderRows := 0,
    numLabelLevels := 0, autoMerge := false, truncateCells := false,
    autoCenterHeaders := true }

/-- Go `(*Table).sameShape`: `true` means Go returns a nil error
(table empty, or the new row has as many fields as `tbl.rows[0]`). -/
def sameShape (tbl : Table) (row : List Str) : Bool :=
  if tbl.rows.length == 0 then true
  else row.length == (tbl.rows.headD []).length

/-- Go `(*Table).AppendRow`.  The `Bool` is `true` when Go returns a
non-nil error; the returned `Table` is the receiver's state afterwards
(unchanged on error, since Go returns before mutating). -/
def appendRow (tbl : Table) (row : List Str) : Table × Bool :=
  if sameShape tbl row then ({ tbl with rows := tbl.rows ++ [row] }, false)
  else (tbl, true)

/-- Go `(*Table).AppendHeaderRow`: insert the new row directly after the
existing header rows and increment the header count.  (Go slices
`tbl.rows[:tbl.numHeaderRows]`, which panics when `numHeaderRows`
exceeds the row count; that state is unreachable through the public
interface, and `List.take`/`List.drop` agree with Go below the bound.) -/
def appendHeaderRow (tbl : Table) (row : List Str) : Table × Bool :=
  if sameShape tbl row then
    ({ tbl with
        rows := (tbl.rows.take tbl.numHeaderRows ++ [row]) ++ tbl.rows.drop tbl.numHeaderRows
        numHeaderRows := tbl.numHeaderRows + 1 }, false)
  else (tbl, true)

/-- Go `(*Table).AppendRows`: append rows one at a time, stopping at the
first shape error and leaving the earlier appends in place. -/
def appendRows : Table → List (List Str) → Table × Bool
  | tbl, [] => (tbl, false)
  | tbl, row :: rest =>
    match appendRow tbl row with
    | (tbl2, false) => appendRows tbl2 rest
    | (tbl2, true) => (tbl2, true)

/-- One public row-mutation call. -/
inductive TableOp where
  | row (r : List Str)
  | headerRow (r : List Str)
  | rows (rs : List (List Str))

/-- The table state after one public mutation call (error or not:
on error Go leaves the receiver unchanged, except that `AppendRows`
keeps the rows appended before the failing one). -/
def applyOp (tbl : Table) : TableOp → Table
  | TableOp.row r => (appendRow tbl r).1
  | TableOp.headerRow r => (appendHeaderRow tbl r).1
  | TableOp.rows rs => (appendRows tbl rs).1

/-- The table state after a sequence of public mutation calls. -/
def applyOps (tbl : Table) (ops : List TableOp) : Table := ops.foldl applyOp tbl

/-- Go `runeWidth`: `len([]rune(s))`, the number of code points. -/
def runeWidth (s : Str) : Nat := s.length

/-- Go `exceedsMaxWidth`. -/
def exceedsMaxWidth (s : Str) (maxWidth : Nat) : Bool := decide (maxWidth < runeWidth s)

/-- Go `truncate`: keep the first `maxWidth-3` runes and append `...`.
In Go the bound `maxWidth-3` is a signed `int`; when it is negative the
slice `r[:maxWidth-3]` panics, modelled by `none`. -/
def truncateGo (s : Str) (maxWidth : Nat) : Option Str :=
  if !exceedsMaxWidth s maxWidth then some s
  else if maxWidth < 3 then none
  else some (s.take (maxWidth - 3) ++ ['.', '.', '.'])

/-- Go `wrap`: split `s` into a first line of at most `maxWidth` runes and
the remainder, preferring a split at a space and hyphenating a mid-word
split.  The Go code indexes `r[maxWidth-1]` and `r[maxWidth-2]` with
signed arithmetic; a negative index panics, modelled by `none` (the
`List.get?` misses cannot fire: `maxWidth < length s` in every branch
that indexes). -/
def wrapGo (s : Str) (maxWidth : Nat) : Option (Str × Str) :=
  if !exceedsMaxWidth s maxWidth then some (s, [])
  else if maxWidth < 1 then none
  else
    match s.get? (maxWidth - 1) with
    | none => none
    | some last =>
      if goIsSpace last then
        some (s.take (maxWidth - 1), s.drop maxWidth)
      else if maxWidth < 2 then none
      else
        match s.get? (maxWidth - 2) with
        | none => none
        | some penultimate =>
          if goIsSpace penultimate then
            match s.get? maxWidth with
            | none => none
            | some atCut =>
              if goIsSpace atCut then
                some (s.take maxWidth, trimLeftSpace (s.drop maxWidth))
              else
                some (s.take (maxWidth - 2), s.drop (maxWidth - 1))
          else
            some (s.take (maxWidth - 1) ++ ['-'], s.drop (maxWidth - 1))

/-- Go `Sprintf("%*s", w, s)`: right-justify `s` in a field of at least
`w` runes (no padding when `s` is already that wide). -/
def padLeft (w : Nat) (s : Str) : Str := List.replicate (w - s.length) ' ' ++ s

/-- Go `Sprintf("%-*s", w, s)`: left-justify `s` in a field of at least
`w` runes. -/
def padRight (w : Nat) (s : Str) : Str := s ++ List.replicate (w - s.length) ' '

/-- Go `alignString`: pad `s` to `width` runes according to `alignment`,
wrapped in a 1-space buffer on either side.  Centering right-justifies
into a field of `(width + runeWidth s) / 2` runes and left-justifies
the result into the full width. -/
def alignString (s : Str) (width : Nat) (alignment : Alignment) : Str :=
  if alignment = Alignment.left then
    [' '] ++ padRight width s ++ [' ']
  else if alignment = Alignment.right then
    [' '] ++ padLeft width s ++ [' ']
  else
    [' '] ++ padRight width (padLeft ((width + runeWidth s) / 2) s) ++ [' ']

/-- Go `repeat`: `s` concatenated `n` times. -/
def repeatStr (s : Str) : Nat → Str
  | 0 => []
  | n + 1 => repeatStr s n ++ s

/-- The per-column body of Go `stringifyDividingRow`: for column `k`, a
filler run of `width + 2` runes followed by the ordinary edge, or the
label edge when `k == numLabelLevels - 1`. -/
def dividingCols (edge labelEdge filler : Str) (numLabelLevels : Nat) : Nat → List Nat → Str
  | _, [] => []
  | k, w :: ws =>
    repeatStr filler (1 + w + 1) ++ (if k + 1 = numLabelLevels then labelEdge else edge) ++
      dividingCols edge labelEdge filler numLabelLevels (k + 1) ws

/-- Go `stringifyDividingRow`: a border line (or, with `header`, a header
separator line), newline-terminated. -/
def stringifyDividingRow (cfg : Config) (colWidths : List Nat) (numLabelLevels : Nat) (header : Bool) : Str :=
  let edge := if header then cfg.headerEdge else cfg.borderEdge
  let labelEdge := if header then cfg.headerLabelEdge else cfg.borderLabelEdge
  let filler := if header then cfg.headerFiller else cfg.borderFiller
  edge ++ dividingCols edge labelEdge filler numLabelLevels 0 colWidths ++ ['\n']

/-- Go `autoMergeRows`: for each index `k` below `len(priorRow)`, blank
`currentRow[k]` when it repeats `priorRow[k]`, else update `priorRow[k]`.
Returns the final values of `(priorRow, currentRow)`.  Go indexes
`currentRow[k]` for every `k` below `len(priorRow)`, panicking when
`currentRow` is shorter: `none`. -/
def autoMergeRows : List Str → List Str → Option (List Str × List Str)
  | [], currentRow => some ([], currentRow)
  | _ :: _, [] => none
  | p :: ps, c :: cs =>
    match autoMergeRows ps cs with
    | none => none
    | some (ps2, cs2) =>
      if p = c then some (p :: ps2, [] :: cs2) else some (c :: ps2, c :: cs2)

/-- One `ret[k]` update of Go `resizeColWidths`: in a header row the raw
rune width is taken first (uncapped); then the width capped at
`maxColWidth` is taken in every row. -/
def updateWidth (maxW : Nat) (isHeader : Bool) (acc : Nat) (cell : Str) : Nat :=
  let acc1 := if isHeader && decide (acc < runeWidth cell) then runeWidth cell else acc
  let cellWidth := if maxW < runeWidth cell then maxW else runeWidth cell
  if acc1 < cellWidth then cellWidth else acc1

/-- The inner loop of Go `resizeColWidths` over the cells of one row
(`for k := range tbl.rows[i]`).  Go indexes `ret[k]`, panicking when the
row is longer than `ret`; that branch is unreachable when every row has
the first row's length, and is modelled by stopping. -/
def updateRow (maxW : Nat) (isHeader : Bool) : List Nat → List Str → List Nat
  | acc, [] => acc
  | [], _ :: _ => []
  | a :: rest, c :: cs => updateWidth maxW isHeader a c :: updateRow maxW isHeader rest cs

/-- The outer loop of Go `resizeColWidths` over rows, carrying the row
index (header rows are those with index below `numHeaderRows`). -/
def resizeColWidthsAux (maxW nH : Nat) : Nat → List Nat → List (List Str) → List Nat
  | _, acc, [] => acc
  | i, acc, row :: rest =>
    resizeColWidthsAux maxW nH (i + 1) (updateRow maxW (decide (i < nH)) acc row) rest

/-- Go `resizeColWidths`: one width per column of `rows[0]`, the maximum
contribution over all rows (expects at least 1 row; Go indexes
`rows[0]`). -/
def resizeColWidths (maxW nH : Nat) (rows : List (List Str)) : List Nat :=
  resizeColWidthsAux maxW nH 0 (List.replicate (rows.headD []).length 0) rows

/-- Σ of the rune lengths of a row's cells (the fuel measure for the
multi-line content loop). -/
def sumLen (content : List Str) : Nat := (content.map List.length).sum

/-- One pass of the column loop of Go `stringifyContentRow`, from column
index `k`: produces the emitted text after the leftmost edge, the new
per-column contents (each cell replaced by its wrap remainder, or empty),
and the `moreWrappedLines` flag.  Go indexes `content[k]` for every `k`
below `len(colWidths)`, panicking when `content` is shorter: `none`;
panics inside `truncate`/`wrap` also propagate as `none`. -/
def contentRowPass (cfg : Config) (tbl : Table) (header : Bool) :
    Nat → List Nat → List Str → Option (Str × List Str × Bool)
  | _, [], rest => some ([], rest, false)
  | _, _ :: _, [] => none
  | k, w :: ws, c :: cs =>
    let step : Option (Str × Str × Bool) :=
      if exceedsMaxWidth c w then
        if tbl.truncateCells then
          match truncateGo c w with
          | none => none
          | some t => some (t, [], false)
        else
          match wrapGo c w with
          | none => none
          | some (firstLine, remainder) => some (firstLine, remainder, !remainder.isEmpty)
      else some (c, [], false)
    match step with
    | none => none
    | some (text, remainder, wrapped) =>
      let alignment := if header && tbl.autoCenterHeaders then Alignment.center else tbl.alignment
      let piece := alignString text w alignment ++
        (if k + 1 = tbl.numLabelLevels then cfg.contentLabelEdge else cfg.contentEdge)
      match contentRowPass cfg tbl header (k + 1) ws cs with
      | none => none
      | some (restStr, restContent, restMore) =>
        some (piece ++ restStr, remainder :: restContent, wrapped || restMore)

/-- The outer loop of Go `stringifyContentRow`: emit one physical line per
pass, starting each with the content edge, separating passes with `\n`,
and ending the whole row with the `Sprintln` newline.  The loop repeats
while some wrap remainder is non-empty; the fuel argument bounds the
number of passes (`none` when exhausted, which models divergence or is
simply never reached: each non-panicking pass with remainders strictly
shrinks `sumLen`). -/
def contentRowLoop (cfg : Config) (tbl : Table) (header : Bool) (colWidths : List Nat) :
    Nat → List Str → Option Str
  | 0, _ => none
  | fuel + 1, content =>
    match contentRowPass cfg tbl header 0 colWidths content with
    | none => none
    | some (line, newContent, more) =>
      if more then
        match contentRowLoop cfg tbl header colWidths fuel newContent with
        | none => none
        | some rest => some (cfg.contentEdge ++ line ++ '\n' :: rest)
      else some (cfg.contentEdge ++ line ++ ['\n'])

/-- Go `stringifyContentRow`.  Initial fuel `sumLen content + 1` is enough
for every terminating execution of the Go loop. -/
def stringifyContentRow (cfg : Config) (tbl : Table) (colWidths : List Nat)
    (content : List Str) (header : Bool) : Option Str :=
  contentRowLoop cfg tbl header colWidths (sumLen content + 1) content

/-- The row loop of Go `render`, over the remaining rows starting at index
`i`, carrying `priorRow` by value.  In Go `priorRow` is a slice that
*aliases* `tbl.rows[tbl.numHeaderRows]` from `i == numHeaderRows+1` on,
and `autoMergeRows` writes through it; the carried value here is exactly
what that stored row holds, and `render` writes it back at the end.
Returns the emitted text and the final `priorRow` value. -/
def renderRows (cfg : Config) (tbl : Table) (colWidths : List Nat) (borderLine headerLine : Str) :
    Nat → List (List Str) → List Str → Option (Str × List Str)
  | _, [], priorRow => some ([], priorRow)
  | i, row :: rest, priorRow =>
    let pre : Str := if i = 0 then borderLine else if i = tbl.numHeaderRows then headerLine else []
    let merged : Option (List Str × List Str) :=
      if tbl.autoMerge then
        let priorRow := if i = tbl.numHeaderRows + 1 then tbl.rows.getD tbl.numHeaderRows [] else priorRow
        autoMergeRows priorRow row
      else some (priorRow, row)
    match merged with
    | none => none
    | some (priorRow2, rowCopy2) =>
      match stringifyContentRow cfg tbl colWidths rowCopy2 (decide (i < tbl.numHeaderRows)) with
      | none => none
      | some rowStr =>
        match renderRows cfg tbl colWidths borderLine headerLine (i + 1) rest priorRow2 with
        | none => none
        | some (restStr, priorFinal) => some (pre ++ rowStr ++ restStr, priorFinal)

/-- Go `(*Table).render`: error on an empty table, otherwise the full
rendered string.  The second component of the `ok` result is the table
state after the call: through the `priorRow` alias, auto-merge rendering
overwrites the stored row at index `numHeaderRows` whenever the loop
reached index `numHeaderRows + 1` (that row is not read again inside the
call after the alias is created, so writing the final value back is
exactly the Go heap effect).  `none` models a runtime panic. -/
def render (cfg : Config) (tbl : Table) : Option (Except Unit (Str × Table)) :=
  if tbl.rows.length == 0 then some (Except.error ())
  else
    let colWidths := resizeColWidths cfg.maxColWidth tbl.numHeaderRows tbl.rows
    let borderLine := stringifyDividingRow cfg colWidths tbl.numLabelLevels false
    let headerLine := stringifyDividingRow cfg colWidths tbl.numLabelLevels true
    match renderRows cfg tbl colWidths borderLine headerLine 0 tbl.rows [] with
    | none => none
    | some (body, priorFinal) =>
      let finalRows :=
        if tbl.autoMerge && decide (tbl.numHeaderRows + 1 < tbl.rows.length) then
          tbl.rows.set tbl.numHeaderRows priorFinal
        else tbl.rows
      some (Except.ok (body ++ borderLine, { tbl with rows := finalRows }))

/-- The string returned by a successful `render` call. -/
def renderString (cfg : Config) (tbl : Table) : Option Str :=
  match render cfg tbl with
  | some (Except.ok (s, _)) => some s
  | _ => none

/-- The table state after a successful `render` call. -/
def renderAfter (cfg : Config) (tbl : Table) : Option Table :=
  match render cfg tbl with
  | some (Except.ok (_, t)) => some t
  | _ => none

/-- The string returned by a second `render` call, made on the state the
first call left behind. -/
def renderStringTwice (cfg : Config) (tbl : Table) : Option Str :=
  (renderAfter cfg tbl).bind (renderString cfg)

/-- The auto-merge table of the Go test `TestTable_render` ("no labels -
no header - auto merge"): rows `foo bar / foo quux / baz quux`,
left-aligned, `autoMerge` on. -/
def mergeExample : Table :=
  { newTable with
    rows := [[['f', 'o', 'o'], ['b', 'a', 'r']],
             [['f', 'o', 'o'], ['q', 'u', 'u', 'x']],
             [['b', 'a', 'z'], ['q', 'u', 'u', 'x']]],
    alignment := Alignment.left, autoMerge := true }

/-- The width contribution of row `i`'s cell to its column, as the spec
describes it: header rows (index below `numHeaderRows`) contribute the
full rune count, other rows contribute the rune count capped at the
maximum column width.  (Spec-side definition, for comparison with
`resizeColWidths`.) -/
def specContribution (maxW nH i : Nat) (cell : Str) : Nat :=
  if i < nH then runeWidth cell else min (runeWidth cell) maxW

/-- `specContribution` with the header test already decided. -/
def contribOf (maxW : Nat) (isHeader : Bool) (cell : Str) : Nat :=
  if isHeader then runeWidth cell else min (runeWidth cell) maxW

/-- The maximum of a list of naturals (0 when empty). -/
def listMax : List Nat → Nat
  | [] => 0
  | x :: xs => max x (listMax xs)

/-! ## C7: alignment always yields `width + 2` code points -/

/-- C7: for every string `s`, width `w` with `runeWidth s ≤ w`, and
alignment mode, `alignString s w mode` returns a string of exactly
`w + 2` code points: the text padded with spaces to width `w` inside a
one-space buffer on each side. -/
theorem c7_alignString_length (s : Str) (w : Nat) (a : Alignment)
    (h : runeWidth s ≤ w) : (alignString s w a).length = w + 2 := by
  unfold runeWidth at h
  cases a <;> simp [alignString, padLeft, padRight, runeWidth] <;> omega

/-- Witness for C7 at a concrete multi-byte input. -/
theorem c7_alignString_length_witness :
    runeWidth ['å', '¬', 'ß'] ≤ 6 ∧ (alignString ['å', '¬', 'ß'] 6 Alignment.center).length = 6 + 2 :=
  ⟨by decide, c7_alignString_length ['å', '¬', 'ß'] 6 Alignment.center (by decide)⟩

/-! ## C8: truncation format and length -/

/-- C8: for `w ≥ 3`, a string wider than `w` truncates to its first
`w - 3` code points followed by `...` — a string of exactly `w` code
points ending in `...` — and a string of at most `w` code points is
returned unchanged. -/
theorem c8_truncate_format (s : Str) (w : Nat) (h3 : 3 ≤ w) :
    (runeWidth s ≤ w → truncateGo s w = some s) ∧
    (w < runeWidth s → ∃ t, truncateGo s w = some t ∧
      t = s.take (w - 3) ++ ['.', '.', '.'] ∧ t.length = w ∧
      ∃ u, t = u ++ ['.', '.', '.']) := by
  unfold truncateGo exceedsMaxWidth runeWidth
  constructor
  · intro h
    simp [Nat.not_lt.mpr h]
  · intro h
    refine ⟨s.take (w - 3) ++ ['.', '.', '.'], ?_, rfl, ?_, s.take (w - 3), rfl⟩
    · simp [h, Nat.not_lt.mpr h3]
    · simp only [List.length_append, List.length_take, List.length_cons, List.length_nil]
      omega

/-- Witness for C8: a 5-rune cell truncated to width 4 becomes one rune
and the ellipsis. -/
theorem c8_truncate_format_witness :
    ∃ t, truncateGo ['a', 'b', 'c', 'd', 'e'] 4 = some t ∧
      t = (['a', 'b', 'c', 'd', 'e'] : Str).take (4 - 3) ++ ['.', '.', '.'] ∧
      t.length = 4 ∧ ∃ u, t = u ++ ['.', '.', '.'] :=
  (c8_truncate_format ['a', 'b', 'c', 'd', 'e'] 4 (by decide)).2 (by decide)

/-! ## C2: center alignment puts the larger pad on the right, not the left -/

/-- C2 is false as stated: centering `foo` in width 6 yields one space of
padding on the left of the text and two on the right (inside the
one-space buffers), so the larger share of an odd leftover goes to the
*right*, not the left. -/
theorem c2_center_counterexample :
    alignString ['f', 'o', 'o'] 6 Alignment.center =
      [' '] ++ List.replicate 1 ' ' ++ ['f', 'o', 'o'] ++ List.replicate 2 ' ' ++ [' '] ∧
    alignString ['f', 'o', 'o'] 6 Alignment.center ≠
      [' '] ++ List.replicate 2 ' ' ++ ['f', 'o', 'o'] ++ List.replicate 1 ' ' ++ [' '] := by
  constructor <;> decide

/-- C2 (amended): when `runeWidth s ≤ w` and `w - runeWidth s` is odd,
center alignment places the larger share of the padding to the *right*
of the text: inside the one-space buffers the right pad exceeds the
left pad by one. -/
theorem c2_center_odd_pad (s : Str) (w : Nat)
    (hle : runeWidth s ≤ w) (hodd : (w - runeWidth s) % 2 = 1) :
    alignString s w Alignment.center =
      [' '] ++ List.replicate ((w - runeWidth s) / 2) ' ' ++ s ++
        List.replicate ((w - runeWidth s) / 2 + 1) ' ' ++ [' '] := by
  unfold runeWidth at *
  have h1 : (w + s.length) / 2 - s.length = (w - s.length) / 2 := by omega
  have h2 : w - ((w - s.length) / 2 + s.length) = (w - s.length) / 2 + 1 := by omega
  simp only [alignString, padLeft, padRight, runeWidth, List.length_append,
    List.length_replicate, reduceCtorEq, if_false, h1, h2]
  simp [List.append_assoc]

/-- Witness for C2 (amended) at the Go test's input (`foo` in width 6). -/
theorem c2_center_odd_pad_witness :
    alignString ['f', 'o', 'o'] 6 Alignment.center =
      [' '] ++ List.replicate ((6 - runeWidth ['f', 'o', 'o']) / 2) ' ' ++ ['f', 'o', 'o'] ++
        List.replicate ((6 - runeWidth ['f', 'o', 'o']) / 2 + 1) ' ' ++ [' '] :=
  c2_center_odd_pad ['f', 'o', 'o'] 6 (by decide) (by decide)

/-! ## C9: wrap conserves the non-whitespace content -/

/-- C9: for `w ≥ 2`, `wrap s w` succeeds with `(firstLine, remainder)`
such that `s` is recovered from `firstLine ++ remainder` by dropping the
hyphen a mid-word split appends to the line and re-inserting only
whitespace at the split point: every non-whitespace code point of `s`
appears exactly once, in order, in `firstLine ++ remainder`. -/
theorem c9_wrap_conservation (s : Str) (w : Nat) (hw : 2 ≤ w) :
    ∃ firstLine remainder, wrapGo s w = some (firstLine, remainder) ∧
      ∃ core gap, (firstLine = core ∨ firstLine = core ++ ['-']) ∧
        s = core ++ (gap ++ remainder) ∧ ∀ c ∈ gap, goIsSpace c = true := by
  by_cases hx : exceedsMaxWidth s w = true
  case neg =>
    refine ⟨s, [], by simp [wrapGo, hx], s, [], Or.inl rfl, by simp, by simp⟩
  case pos =>
    have hlen : w < s.length := by simpa [exceedsMaxWidth, runeWidth] using hx
    have h1w : w - 1 < s.length := by omega
    have h2w : w - 2 < s.length := by omega
    have hn1 : ¬w < 1 := by omega
    have hn2 : ¬w < 2 := by omega
    have hg1 : s[w - 1]? = some s[w - 1] := List.getElem?_eq_getElem h1w
    have hg2 : s[w - 2]? = some s[w - 2] := List.getElem?_eq_getElem h2w
    have hgw : s[w]? = some s[w] := List.getElem?_eq_getElem hlen
    have hsplit1 : s = s.take (w - 1) ++ (s[w - 1] :: s.drop w) := by
      have hd : s.drop (w - 1) = s[w - 1] :: s.drop (w - 1 + 1) :=
        List.drop_eq_getElem_cons h1w
      have he : w - 1 + 1 = w := by omega
      rw [he] at hd
      calc s = s.take (w - 1) ++ s.drop (w - 1) := (List.take_append_drop _ s).symm
        _ = _ := by rw [hd]
    have hsplit2 : s = s.take (w - 2) ++ (s[w - 2] :: s.drop (w - 1)) := by
      have hd : s.drop (w - 2) = s[w - 2] :: s.drop (w - 2 + 1) :=
        List.drop_eq_getElem_cons h2w
      have he : w - 2 + 1 = w - 1 := by omega
      rw [he] at hd
      calc s = s.take (w - 2) ++ s.drop (w - 2) := (List.take_append_drop _ s).symm
        _ = _ := by rw [hd]
    cases hs1 : goIsSpace s[w - 1] with
    | true =>
      refine ⟨s.take (w - 1), s.drop w, by simp [wrapGo, hx, hn1, hg1, hs1],
        s.take (w - 1), [s[w - 1]], Or.inl rfl, by simpa using hsplit1,
        by simp [hs1]⟩
    | false =>
      cases hs2 : goIsSpace s[w - 2] with
      | true =>
        cases hsw : goIsSpace s[w] with
        | true =>
          refine ⟨s.take w, trimLeftSpace (s.drop w),
            by simp [wrapGo, hx, hn1, hn2, hg1, hs1, hg2, hs2, hgw, hsw],
            s.take w, (s.drop w).takeWhile goIsSpace, Or.inl rfl, ?_, ?_⟩
          · simp only [trimLeftSpace, List.takeWhile_append_dropWhile,
              List.take_append_drop]
          · intro c hc
            exact List.mem_takeWhile_imp hc
        | false =>
          refine ⟨s.take (w - 2), s.drop (w - 1),
            by simp [wrapGo, hx, hn1, hn2, hg1, hs1, hg2, hs2, hgw, hsw],
            s.take (w - 2), [s[w - 2]], Or.inl rfl, by simpa using hsplit2,
            by simp [hs2]⟩
      | false =>
        refine ⟨s.take (w - 1) ++ ['-'], s.drop (w - 1),
          by simp [wrapGo, hx, hn1, hn2, hg1, hs1, hg2, hs2],
          s.take (w - 1), [], Or.inr rfl, by simp [List.take_append_drop], by simp⟩

/-- Witness for C9 (Go test case: `wrap("much t…", 7)` splits mid-word). -/
theorem c9_wrap_conservation_witness :
    ∃ firstLine remainder,
      wrapGo ['m', 'u', 'c', 'h', ' ', 't', 'o', 'o'] 7 = some (firstLine, remainder) ∧
      ∃ core gap, (firstLine = core ∨ firstLine = core ++ ['-']) ∧
        ['m', 'u', 'c', 'h', ' ', 't', 'o', 'o'] = core ++ (gap ++ remainder) ∧
        ∀ c ∈ gap, goIsSpace c = true :=
  c9_wrap_conservation ['m', 'u', 'c', 'h', ' ', 't', 'o', 'o'] 7 (by decide)

/-! ## C5, C6: shape invariant and append error behaviour -/

theorem headD_mem {rows : List (List Str)} (h : rows ≠ []) : rows.headD [] ∈ rows := by
  cases rows with
  | nil => exact absurd rfl h
  | cons a as => exact List.mem_cons_self a as

theorem appendRow_uniform (tbl : Table) (row : List Str)
    (h : ∃ L, ∀ r ∈ tbl.rows, r.length = L) :
    ∃ L, ∀ r ∈ (appendRow tbl row).1.rows, r.length = L := by
  obtain ⟨L, hL⟩ := h
  by_cases hs : sameShape tbl row = true
  · cases htr : tbl.rows with
    | nil =>
      refine ⟨row.length, ?_⟩
      simp [appendRow, hs, htr]
    | cons a as =>
      have ha : a.length = L := hL a (by rw [htr]; exact List.mem_cons_self a as)
      have hrow : row.length = L := by
        simp [sameShape, htr] at hs
        omega
      refine ⟨L, ?_⟩
      intro r hr
      simp only [appendRow, hs, if_true] at hr
      rcases List.mem_append.mp hr with h1 | h1
      · exact hL r h1
      · rw [List.mem_singleton.mp h1]; exact hrow
  · refine ⟨L, ?_⟩
    simpa [appendRow, hs] using hL

theorem appendHeaderRow_uniform (tbl : Table) (row : List Str)
    (h : ∃ L, ∀ r ∈ tbl.rows, r.length = L) :
    ∃ L, ∀ r ∈ (appendHeaderRow tbl row).1.rows, r.length = L := by
  obtain ⟨L, hL⟩ := h
  by_cases hs : sameShape tbl row = true
  · cases htr : tbl.rows with
    | nil =>
      refine ⟨row.length, ?_⟩
      simp [appendHeaderRow, hs, htr]
    | cons a as =>
      have ha : a.length = L := hL a (by rw [htr]; exact List.mem_cons_self a as)
      have hrow : row.length = L := by
        simp [sameShape, htr] at hs
        omega
      refine ⟨L, ?_⟩
      intro r hr
      simp only [appendHeaderRow, hs, if_true] at hr
      rcases List.mem_append.mp hr with h1 | h1
      · rcases List.mem_append.mp h1 with h2 | h2
        · exact hL r (List.take_subset _ _ h2)
        · rw [List.mem_singleton.mp h2]; exact hrow
      · exact hL r (List.drop_subset _ _ h1)
  · refine ⟨L, ?_⟩
    simpa [appendHeaderRow, hs] using hL

theorem appendRows_uniform (rs : List (List Str)) :
    ∀ tbl : Table, (∃ L, ∀ r ∈ tbl.rows, r.length = L) →
      ∃ L, ∀ r ∈ (appendRows tbl rs).1.rows, r.length = L := by
  induction rs with
  | nil => intro tbl h; exact h
  | cons r rest ih =>
    intro tbl h
    have h2 := appendRow_uniform tbl r h
    unfold appendRows
    cases hcall : appendRow tbl r with
    | mk tbl2 err =>
      cases err with
      | false =>
        simp only []
        exact ih tbl2 (by rw [hcall] at h2; exact h2)
      | true =>
        simp only []
        rw [hcall] at h2
        exact h2

theorem applyOp_uniform (tbl : Table) (op : TableOp)
    (h : ∃ L, ∀ r ∈ tbl.rows, r.length = L) :
    ∃ L, ∀ r ∈ (applyOp tbl op).rows, r.length = L := by
  cases op with
  | row r => exact appendRow_uniform tbl r h
  | headerRow r => exact appendHeaderRow_uniform tbl r h
  | rows rs => exact appendRows_uniform rs tbl h

theorem applyOps_uniform (ops : List TableOp) :
    ∀ tbl : Table, (∃ L, ∀ r ∈ tbl.rows, r.length = L) →
      ∃ L, ∀ r ∈ (applyOps tbl ops).rows, r.length = L := by
  induction ops with
  | nil => intro tbl h; exact h
  | cons op rest ih =>
    intro tbl h
    exact ih (applyOp tbl op) (applyOp_uniform tbl op h)

/-- C5: after any sequence of public append calls on a new empty table
(counting also the failing ones, which leave the state as documented),
every stored row has the same cell count as the first stored row. -/
theorem c5_shape_invariant (ops : List TableOp) :
    ∀ r ∈ (applyOps newTable ops).rows,
      r.length = ((applyOps newTable ops).rows.headD []).length := by
  obtain ⟨L, hL⟩ := applyOps_uniform ops newTable ⟨0, by simp [newTable]⟩
  intro r hr
  have hne : (applyOps newTable ops).rows ≠ [] := by
    intro he
    rw [he] at hr
    exact absurd hr (List.not_mem_nil r)
  rw [hL r hr, hL _ (headD_mem hne)]

/-- Witness for C5: a header append, a row append and a bulk append
(with one failing row) on a new table. -/
theorem c5_shape_invariant_witness :
    [['b']] ∈ (applyOps newTable
      [TableOp.headerRow [['h']], TableOp.row [['a']],
       TableOp.rows [[['b']], [['c'], ['d']], [['e']]]]).rows ∧
    ([['b']] : List Str).length = ((applyOps newTable
      [TableOp.headerRow [['h']], TableOp.row [['a']],
       TableOp.rows [[['b']], [['c'], ['d']], [['e']]]]).rows.headD []).length :=
  ⟨by decide, c5_shape_invariant
    [TableOp.headerRow [['h']], TableOp.row [['a']],
     TableOp.rows [[['b']], [['c'], ['d']], [['e']]]] [['b']] (by decide)⟩

theorem sameShape_iff (tbl : Table) (row : List Str) :
    sameShape tbl row = true ↔
      (tbl.rows = [] ∨ row.length = (tbl.rows.headD []).length) := by
  cases h : tbl.rows <;> simp [sameShape, h]

theorem appendRows_spec (rs : List (List Str)) :
    ∀ tbl : Table,
      (appendRows tbl rs).1 =
        { tbl with rows := tbl.rows ++
            rs.takeWhile (fun r => r.length == ((tbl.rows ++ rs).headD []).length) } ∧
      ((appendRows tbl rs).2 = true ↔
        ∃ r ∈ rs, r.length ≠ ((tbl.rows ++ rs).headD []).length) := by
  induction rs with
  | nil =>
    intro tbl
    constructor
    · simp [appendRows]
    · simp [appendRows]
  | cons r rest ih =>
    intro tbl
    have hL : ((tbl.rows ++ [r]) ++ rest).headD [] = (tbl.rows ++ r :: rest).headD [] := by
      simp
    by_cases hs : sameShape tbl r = true
    case pos =>
      have hpred : r.length = ((tbl.rows ++ r :: rest).headD []).length := by
        rcases (sameShape_iff tbl r).mp hs with he | hl
        · simp [he]
        · cases h : tbl.rows with
          | nil => simp [h]
          | cons a as =>
            rw [h] at hl
            simp [h] at hl ⊢
            simpa using hl
      have hstep : appendRows tbl (r :: rest) =
          appendRows { tbl with rows := tbl.rows ++ [r] } rest := by
        simp [appendRows, appendRow, hs]
      obtain ⟨ih1, ih2⟩ := ih { tbl with rows := tbl.rows ++ [r] }
      simp only [hL] at ih1 ih2
      have hcondp : (r.length == ((tbl.rows ++ r :: rest).headD []).length) = true :=
        beq_iff_eq.mpr hpred
      have htw : (r :: rest).takeWhile
            (fun q => q.length == ((tbl.rows ++ r :: rest).headD []).length) =
          r :: rest.takeWhile
            (fun q => q.length == ((tbl.rows ++ r :: rest).headD []).length) := by
        rw [List.takeWhile_cons]
        show (if (r.length == ((tbl.rows ++ r :: rest).headD []).length) = true then _ else _) = _
        rw [if_pos hcondp]
      constructor
      · rw [hstep, ih1, htw]
        simp [List.append_assoc]
      · rw [hstep, ih2]
        constructor
        · rintro ⟨x, hx1, hx2⟩
          exact ⟨x, List.mem_cons_of_mem r hx1, hx2⟩
        · rintro ⟨x, hx1, hx2⟩
          rcases List.mem_cons.mp hx1 with he | hm
          · exact absurd hpred (he ▸ hx2)
          · exact ⟨x, hm, hx2⟩
    case neg =>
      have hnot := (not_iff_not.mpr (sameShape_iff tbl r)).mp hs
      have hne1 : tbl.rows ≠ [] := fun he => hnot (Or.inl he)
      have hne2 : r.length ≠ (tbl.rows.headD []).length := fun hl => hnot (Or.inr hl)
      have hhead : (tbl.rows ++ r :: rest).headD [] = tbl.rows.headD [] := by
        cases h : tbl.rows with
        | nil => exact absurd h hne1
        | cons a as => simp [h]
      have hstep : appendRows tbl (r :: rest) = (tbl, true) := by
        simp [appendRows, appendRow, hs]
      have hcond : (r.length == ((tbl.rows ++ r :: rest).headD []).length) = false := by
        rw [hhead]
        exact beq_eq_false_iff_ne.mpr hne2
      have htw : (r :: rest).takeWhile
            (fun q => q.length == ((tbl.rows ++ r :: rest).headD []).length) = [] := by
        rw [List.takeWhile_cons]
        show (if (r.length == ((tbl.rows ++ r :: rest).headD []).length) = true then _ else _) = _
        rw [if_neg (by rw [hcond]; exact Bool.false_ne_true)]
      constructor
      · rw [hstep, htw]
        simp
      · rw [hstep]
        simp only [true_iff]
        exact ⟨r, List.mem_cons_self r rest, by rw [hhead]; exact hne2⟩

/-- C6: `AppendRow` and `AppendHeaderRow` error exactly when the table is
non-empty and the new row's cell count differs from the first stored
row's, and on error the table (rows and header count alike) is
unchanged.  `AppendRows` appends its rows in order up to the first shape
mismatch, keeps the earlier rows of the batch, and errors exactly when
some row of the batch mismatches. -/
theorem c6_append_error_behaviour :
    (∀ (tbl : Table) (row : List Str),
      ((appendRow tbl row).2 = true ↔
        tbl.rows ≠ [] ∧ row.length ≠ (tbl.rows.headD []).length) ∧
      ((appendRow tbl row).2 = true → (appendRow tbl row).1 = tbl)) ∧
    (∀ (tbl : Table) (row : List Str),
      ((appendHeaderRow tbl row).2 = true ↔
        tbl.rows ≠ [] ∧ row.length ≠ (tbl.rows.headD []).length) ∧
      ((appendHeaderRow tbl row).2 = true → (appendHeaderRow tbl row).1 = tbl)) ∧
    (∀ (tbl : Table) (rs : List (List Str)),
      (appendRows tbl rs).1 =
        { tbl with rows := tbl.rows ++
            rs.takeWhile (fun r => r.length == ((tbl.rows ++ rs).headD []).length) } ∧
      ((appendRows tbl rs).2 = true ↔
        ∃ r ∈ rs, r.length ≠ ((tbl.rows ++ rs).headD []).length)) := by
  refine ⟨?_, ?_, fun tbl rs => appendRows_spec rs tbl⟩
  · intro tbl row
    have h2 : (appendRow tbl row).2 = true ↔ ¬sameShape tbl row = true := by
      by_cases hs : sameShape tbl row = true <;> simp [appendRow, hs]
    refine ⟨?_, ?_⟩
    · rw [h2, sameShape_iff]
      simp [not_or]
    · intro h
      have hs : ¬sameShape tbl row = true := h2.mp h
      simp [appendRow, hs]
  · intro tbl row
    have h2 : (appendHeaderRow tbl row).2 = true ↔ ¬sameShape tbl row = true := by
      by_cases hs : sameShape tbl row = true <;> simp [appendHeaderRow, hs]
    refine ⟨?_, ?_⟩
    · rw [h2, sameShape_iff]
      simp [not_or]
    · intro h
      have hs : ¬sameShape tbl row = true := h2.mp h
      simp [appendHeaderRow, hs]

/-- Witness for C6: a mismatching row errors and leaves the table
unchanged. -/
theorem c6_append_error_behaviour_witness :
    (appendRow { newTable with rows := [[['a']]] } [['b'], ['c']]).2 = true ∧
    (appendRow { newTable with rows := [[['a']]] } [['b'], ['c']]).1 =
      { newTable with rows := [[['a']]] } :=
  ⟨by decide,
    (c6_append_error_behaviour.1 { newTable with rows := [[['a']]] } [['b'], ['c']]).2
      (by decide)⟩

/-! ## C4: resolved column widths -/

theorem contribOf_decide (maxW nH i : Nat) (cell : Str) :
    contribOf maxW (decide (i < nH)) cell = specContribution maxW nH i cell := by
  by_cases h : i < nH <;> simp [contribOf, specContribution, h]

theorem updateWidth_eq_max (maxW : Nat) (hd : Bool) (a : Nat) (c : Str) :
    updateWidth maxW hd a c = max a (contribOf maxW hd c) := by
  simp only [updateWidth, contribOf, runeWidth]
  cases hd <;> simp <;> split_ifs <;> omega

theorem updateRow_length (maxW : Nat) (hd : Bool) :
    ∀ (acc : List Nat) (row : List Str), row.length ≤ acc.length →
      (updateRow maxW hd acc row).length = acc.length := by
  intro acc row
  induction row generalizing acc with
  | nil => intro _; cases acc <;> rfl
  | cons c cs ih =>
    intro h
    cases acc with
    | nil => simp at h
    | cons a rest =>
      simp only [updateRow, List.length_cons]
      rw [ih rest (by simpa using h)]

theorem updateRow_getD (maxW : Nat) (hd : Bool) :
    ∀ (acc : List Nat) (row : List Str) (k : Nat), row.length ≤ acc.length →
      (updateRow maxW hd acc row).getD k 0 =
        if k < row.length then max (acc.getD k 0) (contribOf maxW hd (row.getD k []))
        else acc.getD k 0 := by
  intro acc row
  induction row generalizing acc with
  | nil =>
    intro k _
    cases acc <;> simp [updateRow]
  | cons c cs ih =>
    intro k h
    cases acc with
    | nil => simp at h
    | cons a rest =>
      cases k with
      | zero => simp [updateRow, updateWidth_eq_max]
      | succ k =>
        simp only [updateRow, List.getD_cons_succ, List.length_cons]
        rw [ih rest k (by simpa using h)]
        simp [Nat.succ_lt_succ_iff]

theorem resizeColWidthsAux_length (maxW nH : Nat) :
    ∀ (rows : List (List Str)) (i : Nat) (acc : List Nat),
      (∀ r ∈ rows, r.length = acc.length) →
      (resizeColWidthsAux maxW nH i acc rows).length = acc.length := by
  intro rows
  induction rows with
  | nil => intro i acc _; rfl
  | cons row rest ih =>
    intro i acc h
    have hrow : row.length = acc.length := h row (List.mem_cons_self row rest)
    have hlen := updateRow_length maxW (decide (i < nH)) acc row (le_of_eq hrow)
    simp only [resizeColWidthsAux]
    rw [ih (i + 1) _ (fun r hr => by rw [hlen]; exact h r (List.mem_cons_of_mem row hr))]
    exact hlen

theorem resizeColWidthsAux_getD (maxW nH : Nat) :
    ∀ (rows : List (List Str)) (i : Nat) (acc : List Nat) (k : Nat),
      (∀ r ∈ rows, r.length = acc.length) → k < acc.length →
      (resizeColWidthsAux maxW nH i acc rows).getD k 0 =
        max (acc.getD k 0)
          (listMax ((rows.enumFrom i).map fun p => specContribution maxW nH p.1 (p.2.getD k []))) := by
  intro rows
  induction rows with
  | nil =>
    intro i acc k _ _
    simp [resizeColWidthsAux, listMax]
  | cons row rest ih =>
    intro i acc k h hk
    have hrow : row.length = acc.length := h row (List.mem_cons_self row rest)
    have hlen := updateRow_length maxW (decide (i < nH)) acc row (le_of_eq hrow)
    simp only [resizeColWidthsAux]
    rw [ih (i + 1) _ k
      (fun r hr => by rw [hlen]; exact h r (List.mem_cons_of_mem row hr))
      (by rw [hlen]; exact hk)]
    rw [updateRow_getD maxW (decide (i < nH)) acc row k (le_of_eq hrow)]
    rw [if_pos (by omega)]
    simp only [List.enumFrom_cons, List.map_cons, listMax, contribOf_decide]
    omega

/-- C4: with at least one row, all of one length, `resizeColWidths`
returns one width per column, equal to the maximum over all rows of the
column's contribution: the full rune count for header rows (index below
`numHeaderRows`), the rune count capped at `maxColWidth` for the rest —
so a header can force a column wider than `maxColWidth`. -/
theorem c4_resizeColWidths (maxW nH : Nat) (rows : List (List Str)) (_hne : rows ≠ [])
    (hshape : ∀ r ∈ rows, r.length = (rows.headD []).length) :
    (resizeColWidths maxW nH rows).length = (rows.headD []).length ∧
    ∀ k, k < (rows.headD []).length →
      (resizeColWidths maxW nH rows).getD k 0 =
        listMax (rows.enum.map fun p => specContribution maxW nH p.1 (p.2.getD k [])) := by
  have hacc : ∀ r ∈ rows, r.length = (List.replicate (rows.headD []).length (0 : Nat)).length := by
    intro r hr
    rw [List.length_replicate]
    exact hshape r hr
  constructor
  · rw [resizeColWidths, resizeColWidthsAux_length maxW nH rows 0 _ hacc,
      List.length_replicate]
  · intro k hk
    rw [resizeColWidths, resizeColWidthsAux_getD maxW nH rows 0 _ k hacc
      (by rw [List.length_replicate]; exact hk)]
    have hz : (List.replicate (rows.headD []).length (0 : Nat)).getD k 0 = 0 := by
      rcases Nat.lt_or_ge k (rows.headD []).length with h | h
      · rw [List.getD_eq_getElem?_getD, List.getElem?_replicate, if_pos h]
        rfl
      · rw [List.getD_eq_getElem?_getD, List.getElem?_replicate, if_neg (by omega)]
        rfl
    rw [hz, List.enum]
    omega

/-- Witness for C4 on the Go test's rows: the header `foo` is shorter
than the body cells `quux`/`corge`, so the column resolves to 5. -/
theorem c4_resizeColWidths_witness :
    (resizeColWidths 30 1 [[['f', 'o', 'o']], [['q', 'u', 'u', 'x']],
        [['c', 'o', 'r', 'g', 'e']]]).length = 1 ∧
    (resizeColWidths 30 1 [[['f', 'o', 'o']], [['q', 'u', 'u', 'x']],
        [['c', 'o', 'r', 'g', 'e']]]).getD 0 0 =
      listMax (([[['f', 'o', 'o']], [['q', 'u', 'u', 'x']],
          [['c', 'o', 'r', 'g', 'e']]] : List (List Str)).enum.map
        fun p => specContribution 30 1 p.1 (p.2.getD 0 [])) := by
  have h := c4_resizeColWidths 30 1
    [[['f', 'o', 'o']], [['q', 'u', 'u', 'x']], [['c', 'o', 'r', 'g', 'e']]]
    (by decide) (by decide)
  refine ⟨?_, h.2 0 (by decide)⟩
  have h1 := h.1
  simpa using h1

/-! ## Helper lemmas for C3 and C10: wrap/truncate totality and progress -/

theorem truncateGo_isSome (s : Str) (w : Nat) (h : 3 ≤ w ∨ s.length ≤ w) :
    (truncateGo s w).isSome := by
  by_cases hx : exceedsMaxWidth s w = true
  · have hlt : w < s.length := by simpa [exceedsMaxWidth, runeWidth] using hx
    have h3 : ¬w < 3 := by omega
    simp [truncateGo, hx, h3]
  · simp [truncateGo, hx]

theorem wrapGo_isSome (s : Str) (w : Nat) (h2 : 2 ≤ w) : (wrapGo s w).isSome := by
  by_cases hx : exceedsMaxWidth s w = true
  · have hlen : w < s.length := by simpa [exceedsMaxWidth, runeWidth] using hx
    have h1w : w - 1 < s.length := by omega
    have h2w : w - 2 < s.length := by omega
    have hn1 : ¬w < 1 := by omega
    have hn2 : ¬w < 2 := by omega
    have hg1 : s[w - 1]? = some s[w - 1] := List.getElem?_eq_getElem h1w
    have hg2 : s[w - 2]? = some s[w - 2] := List.getElem?_eq_getElem h2w
    have hgw : s[w]? = some s[w] := List.getElem?_eq_getElem hlen
    cases hs1 : goIsSpace s[w - 1] with
    | true => simp [wrapGo, hx, hn1, hg1, hs1]
    | false =>
      cases hs2 : goIsSpace s[w - 2] with
      | true =>
        cases hsw : goIsSpace s[w] <;>
          simp [wrapGo, hx, hn1, hn2, hg1, hs1, hg2, hs2, hgw, hsw]
      | false => simp [wrapGo, hx, hn1, hn2, hg1, hs1, hg2, hs2]
  · simp [wrapGo, hx]

theorem wrapGo_rem_lt (s : Str) (w : Nat) (fl rem : Str)
    (hw : wrapGo s w = some (fl, rem)) (hlt : w < s.length) : rem.length < s.length := by
  have hx : exceedsMaxWidth s w = true := by
    simp [exceedsMaxWidth, runeWidth]
    omega
  by_cases hn1 : w < 1
  · simp [wrapGo, hx, hn1] at hw
  · have h1w : w - 1 < s.length := by omega
    have hg1 : s[w - 1]? = some s[w - 1] := List.getElem?_eq_getElem h1w
    cases hs1 : goIsSpace s[w - 1] with
    | true =>
      simp [wrapGo, hx, hn1, hg1, hs1] at hw
      rw [← hw.2]
      simp only [List.length_drop]
      omega
    | false =>
      by_cases hn2 : w < 2
      · simp [wrapGo, hx, hn1, hn2, hg1, hs1] at hw
      · have h2w : w - 2 < s.length := by omega
        have hg2 : s[w - 2]? = some s[w - 2] := List.getElem?_eq_getElem h2w
        have hgw : s[w]? = some s[w] := List.getElem?_eq_getElem hlt
        cases hs2 : goIsSpace s[w - 2] with
        | true =>
          cases hsw : goIsSpace s[w] with
          | true =>
            simp [wrapGo, hx, hn1, hn2, hg1, hs1, hg2, hs2, hgw, hsw] at hw
            rw [← hw.2]
            have hd := (List.dropWhile_suffix (l := s.drop w) goIsSpace).length_le
            simp only [trimLeftSpace]
            simp only [List.length_drop] at hd
            omega
          | false =>
            simp [wrapGo, hx, hn1, hn2, hg1, hs1, hg2, hs2, hgw, hsw] at hw
            rw [← hw.2]
            simp only [List.length_drop]
            omega
        | false =>
          simp [wrapGo, hx, hn1, hn2, hg1, hs1, hg2, hs2] at hw
          rw [← hw.2]
          simp only [List.length_drop]
          omega

theorem autoMergeRows_some : ∀ (p c : List Str), p.length ≤ c.length →
    ∃ p2 c2, autoMergeRows p c = some (p2, c2) ∧ p2.length = p.length ∧
      c2.length = c.length ∧ ∀ k, c2.getD k [] = [] ∨ c2.getD k [] = c.getD k [] := by
  intro p
  induction p with
  | nil =>
    intro c _
    exact ⟨[], c, rfl, rfl, rfl, fun k => Or.inr rfl⟩
  | cons x ps ih =>
    intro c hlen
    cases c with
    | nil => simp at hlen
    | cons y cs =>
      obtain ⟨ps2, cs2, hmerge, hp2, hc2, hcells⟩ := ih cs (by simpa using hlen)
      by_cases hxy : x = y
      · refine ⟨x :: ps2, [] :: cs2, ?_, by simp [hp2], by simp [hc2], ?_⟩
        · simp [autoMergeRows, hmerge, hxy]
        · intro k
          cases k with
          | zero => exact Or.inl rfl
          | succ k => simpa using hcells k
      · refine ⟨y :: ps2, y :: cs2, ?_, by simp [hp2], by simp [hc2], ?_⟩
        · simp [autoMergeRows, hmerge, hxy]
        · intro k
          cases k with
          | zero => exact Or.inr rfl
          | succ k => simpa using hcells k

theorem sumLen_cons (x : Str) (l : List Str) : sumLen (x :: l) = x.length + sumLen l := by
  simp [sumLen]

/-- One pass of the content-row column loop succeeds and makes progress
when every column either already fits or is at least 3 wide (truncating)
resp. 2 wide (wrapping): the new contents are the remainders, their
total rune length does not grow, it strictly shrinks whenever another
pass is requested, and truncation never requests another pass. -/
theorem contentRowPass_some (cfg : Config) (tbl : Table) (header : Bool) :
    ∀ (cw : List Nat) (content : List Str) (k : Nat),
      cw.length ≤ content.length →
      (∀ j, j < cw.length →
        (content.getD j []).length ≤ cw.getD j 0 ∨
          (if tbl.truncateCells then 3 else 2) ≤ cw.getD j 0) →
      ∃ res, contentRowPass cfg tbl header k cw content = some res ∧
        res.2.1.length = content.length ∧
        (∀ j, j < cw.length →
          (res.2.1.getD j []).length ≤ cw.getD j 0 ∨
            (if tbl.truncateCells then 3 else 2) ≤ cw.getD j 0) ∧
        sumLen res.2.1 ≤ sumLen content ∧
        (res.2.2 = true → sumLen res.2.1 < sumLen content) ∧
        (tbl.truncateCells = true → res.2.2 = false) := by
  intro cw
  induction cw with
  | nil =>
    intro content k _ _
    exact ⟨([], content, false), rfl, rfl, by simp, le_refl _, by simp, fun _ => rfl⟩
  | cons w ws ih =>
    intro content k hlen hinv
    cases content with
    | nil => simp at hlen
    | cons c cs =>
      have hc := hinv 0 (by simp)
      simp only [List.getD_cons_zero] at hc
      obtain ⟨res2, hpass2, hlen2, hinv2, hle2, hlt2, htr2⟩ :=
        ih cs (k + 1) (by simpa using hlen) (fun j hj => by
          have h := hinv (j + 1) (by simpa using hj)
          simpa using h)
      obtain ⟨line2, nc2, more2⟩ := res2
      simp only [] at hpass2 hlen2 hinv2 hle2 hlt2 htr2
      by_cases hex : exceedsMaxWidth c w = true
      · cases htc : tbl.truncateCells with
        | true =>
          have h3 : 3 ≤ w := by
            rcases hc with h | h
            · exfalso
              simp [exceedsMaxWidth, runeWidth] at hex
              omega
            · simpa [htc] using h
          obtain ⟨t, ht⟩ := Option.isSome_iff_exists.mp (truncateGo_isSome c w (Or.inl h3))
          refine ⟨_, by (simp [contentRowPass, hex, htc, ht, hpass2]; rfl), ?_, ?_, ?_, ?_, ?_⟩
          · simpa using hlen2
          · intro j hj
            cases j with
            | zero => exact Or.inl (by simp)
            | succ j => simpa [htc] using hinv2 j (by simpa using hj)
          · simp only [sumLen_cons]
            simp only [List.length_nil]
            omega
          · intro h
            rw [htr2 htc] at h
            cases h
          · intro _
            simp [htr2 htc]
        | false =>
          have h2 : 2 ≤ w := by
            rcases hc with h | h
            · exfalso
              simp [exceedsMaxWidth, runeWidth] at hex
              omega
            · simpa [htc] using h
          obtain ⟨pr, hpr⟩ := Option.isSome_iff_exists.mp (wrapGo_isSome c w h2)
          obtain ⟨fl, rem⟩ := pr
          have hclen : w < c.length := by simpa [exceedsMaxWidth, runeWidth] using hex
          have hrem : rem.length < c.length := wrapGo_rem_lt c w fl rem hpr hclen
          refine ⟨_, by (simp [contentRowPass, hex, htc, hpr, hpass2]; rfl), ?_, ?_, ?_, ?_, ?_⟩
          · simpa using hlen2
          · intro j hj
            cases j with
            | zero =>
              refine Or.inr ?_
              simpa using h2
            | succ j => simpa [htc] using hinv2 j (by simpa using hj)
          · simp only [sumLen_cons]
            omega
          · intro _
            simp only [sumLen_cons]
            omega
          · intro h
            simp at h
      · refine ⟨_, by (simp [contentRowPass, hex, hpass2]; rfl), ?_, ?_, ?_, ?_, ?_⟩
        · simpa using hlen2
        · intro j hj
          cases j with
          | zero => exact Or.inl (by simp)
          | succ j => simpa using hinv2 j (by simpa using hj)
        · simp only [sumLen_cons]
          simp only [List.length_nil]
          omega
        · intro h
          have := hlt2 (by simpa using h)
          simp only [sumLen_cons, List.length_nil]
          omega
        · intro ht
          simpa using htr2 ht

/-- The content-row loop terminates with a value when every column
either fits or is wide enough for its overflow handler, given fuel
above the total rune length. -/
theorem contentRowLoop_isSome (cfg : Config) (tbl : Table) (header : Bool) (cw : List Nat) :
    ∀ (fuel : Nat) (content : List Str),
      cw.length ≤ content.length →
      (∀ j, j < cw.length →
        (content.getD j []).length ≤ cw.getD j 0 ∨
          (if tbl.truncateCells then 3 else 2) ≤ cw.getD j 0) →
      sumLen content < fuel →
      (contentRowLoop cfg tbl header cw fuel content).isSome := by
  intro fuel
  induction fuel with
  | zero =>
    intro content _ _ h
    omega
  | succ fuel ih =>
    intro content hlen hinv hfuel
    obtain ⟨res, hpass, hreslen, hresinv, hle, hlt, _⟩ :=
      contentRowPass_some cfg tbl header cw content 0 hlen hinv
    obtain ⟨line, nc, more⟩ := res
    simp only [] at hreslen hresinv hle hlt
    simp only [contentRowLoop, hpass]
    cases more with
    | false => simp
    | true =>
      have hnc := ih nc (by rw [hreslen]; exact hlen) hresinv (by
        have := hlt rfl
        omega)
      cases hl : contentRowLoop cfg tbl header cw fuel nc with
      | none =>
        rw [hl] at hnc
        simp at hnc
      | some rest => simp

theorem stringifyContentRow_isSome (cfg : Config) (tbl : Table) (cw : List Nat)
    (content : List Str) (header : Bool)
    (hlen : cw.length ≤ content.length)
    (hinv : ∀ j, j < cw.length →
      (content.getD j []).length ≤ cw.getD j 0 ∨
        (if tbl.truncateCells then 3 else 2) ≤ cw.getD j 0) :
    (stringifyContentRow cfg tbl cw content header).isSome :=
  contentRowLoop_isSome cfg tbl header cw (sumLen content + 1) content hlen hinv
    (Nat.lt_succ_self _)

theorem listMax_ge_of_mem : ∀ {l : List Nat} {x : Nat}, x ∈ l → x ≤ listMax l := by
  intro l
  induction l with
  | nil =>
    intro x hx
    cases hx
  | cons a as ih =>
    intro x hx
    rcases List.mem_cons.mp hx with he | hm
    · subst he
      simp only [listMax]
      omega
    · have := ih hm
      simp only [listMax]
      omega

theorem mem_enumFrom_of_mem {α : Type} :
    ∀ {l : List α} {x : α} (i : Nat), x ∈ l → ∃ j, (j, x) ∈ l.enumFrom i := by
  intro l
  induction l with
  | nil =>
    intro x i hx
    cases hx
  | cons a as ih =>
    intro x i hx
    rcases List.mem_cons.mp hx with he | hm
    · subst he
      exact ⟨i, by simp [List.enumFrom_cons]⟩
    · obtain ⟨j, hj⟩ := ih (i + 1) hm
      refine ⟨j, ?_⟩
      rw [List.enumFrom_cons]
      exact List.mem_cons_of_mem _ hj

theorem specContribution_ge_min (maxW nH i : Nat) (cell : Str) :
    min cell.length maxW ≤ specContribution maxW nH i cell := by
  unfold specContribution runeWidth
  split_ifs <;> omega

/-- The resolved width of a column is at least the capped rune width of
every cell in it. -/
theorem resizeColWidths_ge (maxW nH : Nat) (rows : List (List Str)) (k : Nat)
    (row : List Str) (hrow : row ∈ rows)
    (hsh : ∀ r ∈ rows, r.length = (rows.headD []).length)
    (hk : k < (rows.headD []).length) :
    min ((row.getD k []).length) maxW ≤ (resizeColWidths maxW nH rows).getD k 0 := by
  have hacc : ∀ r ∈ rows, r.length = (List.replicate (rows.headD []).length (0 : Nat)).length := by
    intro r hr
    rw [List.length_replicate]
    exact hsh r hr
  rw [resizeColWidths, resizeColWidthsAux_getD maxW nH rows 0 _ k hacc
    (by rw [List.length_replicate]; exact hk)]
  obtain ⟨j, hj⟩ := mem_enumFrom_of_mem 0 hrow
  have hmem : specContribution maxW nH j (row.getD k []) ∈
      (rows.enumFrom 0).map (fun p => specContribution maxW nH p.1 (p.2.getD k [])) := by
    exact List.mem_map_of_mem _ hj
  have h1 := listMax_ge_of_mem hmem
  have h2 := specContribution_ge_min maxW nH j (row.getD k [])
  omega

/-- The row loop of `render` succeeds whenever the table's rows all have
length `L`, the column widths dominate the capped cell widths, and the
maximum column width is at least 3 (truncating) resp. 2 (wrapping). -/
theorem renderRows_some (cfg : Config) (tbl : Table) (colWidths : List Nat)
    (borderLine headerLine : Str) (L : Nat)
    (hB : (if tbl.truncateCells then 3 else 2) ≤ cfg.maxColWidth)
    (hall : ∀ r ∈ tbl.rows, r.length = L)
    (hcw : colWidths.length = L)
    (hbound : ∀ k, k < L → ∀ r ∈ tbl.rows,
      min ((r.getD k []).length) cfg.maxColWidth ≤ colWidths.getD k 0) :
    ∀ (rows : List (List Str)) (i : Nat) (prior : List Str),
      (∀ r ∈ rows, r ∈ tbl.rows) →
      (prior.length = 0 ∨ prior.length = L) →
      (renderRows cfg tbl colWidths borderLine headerLine i rows prior).isSome := by
  intro rows
  induction rows with
  | nil =>
    intro i prior _ _
    simp [renderRows]
  | cons row rest ih =>
    intro i prior hsub hprior
    have hrowmem : row ∈ tbl.rows := hsub row (List.mem_cons_self row rest)
    have hrowlen : row.length = L := hall row hrowmem
    have hgd : (tbl.rows.getD tbl.numHeaderRows []).length = 0 ∨
        (tbl.rows.getD tbl.numHeaderRows []).length = L := by
      by_cases h : tbl.numHeaderRows < tbl.rows.length
      · right
        rw [List.getD_eq_getElem?_getD, List.getElem?_eq_getElem h]
        exact hall _ (List.getElem_mem h)
      · left
        rw [List.getD_eq_getElem?_getD, List.getElem?_eq_none (by omega)]
        rfl
    have hstep : ∃ p2 c2,
        (if tbl.autoMerge = true then
          autoMergeRows
            (if i = tbl.numHeaderRows + 1 then tbl.rows.getD tbl.numHeaderRows [] else prior)
            row
        else some (prior, row)) = some (p2, c2) ∧
        (p2.length = 0 ∨ p2.length = L) ∧ c2.length = L ∧
        ∀ j, c2.getD j [] = [] ∨ c2.getD j [] = row.getD j [] := by
      by_cases hm : tbl.autoMerge = true
      · by_cases hi : i = tbl.numHeaderRows + 1
        · obtain ⟨p2, c2, hmerge, hp2, hc2, hcells⟩ :=
            autoMergeRows_some (tbl.rows.getD tbl.numHeaderRows []) row
              (by rw [hrowlen]; omega)
          refine ⟨p2, c2, ?_, ?_, by omega, hcells⟩
          · rw [if_pos hm, if_pos hi, hmerge]
          · rw [hp2]
            exact hgd
        · obtain ⟨p2, c2, hmerge, hp2, hc2, hcells⟩ :=
            autoMergeRows_some prior row (by rw [hrowlen]; omega)
          refine ⟨p2, c2, ?_, ?_, by omega, hcells⟩
          · rw [if_pos hm, if_neg hi, hmerge]
          · rw [hp2]
            exact hprior
      · exact ⟨prior, row, by rw [if_neg hm], hprior, hrowlen, fun j => Or.inr rfl⟩
    obtain ⟨p2, c2, hmerge, hp2, hc2len, hc2cells⟩ := hstep
    have hinvc : ∀ j, j < colWidths.length →
        ((c2.getD j []).length ≤ colWidths.getD j 0 ∨
          (if tbl.truncateCells then 3 else 2) ≤ colWidths.getD j 0) := by
      intro j hj
      rcases hc2cells j with hz | hcell
      · rw [hz]
        exact Or.inl (Nat.zero_le _)
      · rw [hcell]
        by_cases hfit : (row.getD j []).length ≤ colWidths.getD j 0
        · exact Or.inl hfit
        · have := hbound j (by omega) row hrowmem
          exact Or.inr (by omega)
    obtain ⟨rowStr, hrowstr⟩ := Option.isSome_iff_exists.mp
      (stringifyContentRow_isSome cfg tbl colWidths c2 (decide (i < tbl.numHeaderRows))
        (by omega) hinvc)
    have hrec := ih (i + 1) p2 (fun r hr => hsub r (List.mem_cons_of_mem row hr)) hp2
    obtain ⟨restRes, hrest⟩ := Option.isSome_iff_exists.mp hrec
    simp only [List.getD_eq_getElem?_getD] at hmerge
    simp [renderRows, hmerge, hrowstr, hrest]

/-- `render` produces a value (result or empty-table error, never a
panic) whenever all rows share the first row's length and the maximum
column width is at least 3 with truncation, resp. 2 with wrapping. -/
theorem render_isSome (cfg : Config) (tbl : Table)
    (hB : (if tbl.truncateCells then 3 else 2) ≤ cfg.maxColWidth)
    (hshape : ∀ r ∈ tbl.rows, r.length = (tbl.rows.headD []).length) :
    (render cfg tbl).isSome := by
  by_cases hempty : tbl.rows.length = 0
  · simp [render, hempty]
  · have hacc : ∀ r ∈ tbl.rows,
        r.length = (List.replicate (tbl.rows.headD []).length (0 : Nat)).length := by
      intro r hr
      rw [List.length_replicate]
      exact hshape r hr
    have hcw : (resizeColWidths cfg.maxColWidth tbl.numHeaderRows tbl.rows).length =
        (tbl.rows.headD []).length := by
      rw [resizeColWidths, resizeColWidthsAux_length _ _ _ _ _ hacc, List.length_replicate]
    have hbound : ∀ k, k < (tbl.rows.headD []).length → ∀ r ∈ tbl.rows,
        min ((r.getD k []).length) cfg.maxColWidth ≤
          (resizeColWidths cfg.maxColWidth tbl.numHeaderRows tbl.rows).getD k 0 := by
      intro k hk r hr
      exact resizeColWidths_ge _ _ _ _ r hr hshape hk
    have hrr := renderRows_some cfg tbl
      (resizeColWidths cfg.maxColWidth tbl.numHeaderRows tbl.rows)
      (stringifyDividingRow cfg (resizeColWidths cfg.maxColWidth tbl.numHeaderRows tbl.rows)
        tbl.numLabelLevels false)
      (stringifyDividingRow cfg (resizeColWidths cfg.maxColWidth tbl.numHeaderRows tbl.rows)
        tbl.numLabelLevels true)
      (tbl.rows.headD []).length hB hshape hcw hbound tbl.rows 0 []
      (fun _ hr => hr) (Or.inl rfl)
    obtain ⟨res, hres⟩ := Option.isSome_iff_exists.mp hrr
    simp [render, hempty, hres]

/-- In truncating mode, one column pass never requests another line:
the truncate branch leaves every remainder empty. -/
theorem contentRowPass_truncate_no_more (cfg : Config) (tbl : Table) (header : Bool)
    (htc : tbl.truncateCells = true) :
    ∀ (cw : List Nat) (content : List Str) (k : Nat) (res : Str × List Str × Bool),
      contentRowPass cfg tbl header k cw content = some res → res.2.2 = false := by
  intro cw
  induction cw with
  | nil =>
    intro content k res h
    simp only [contentRowPass] at h
    injection h with h2
    rw [← h2]
  | cons w ws ih =>
    intro content k res h
    cases content with
    | nil => simp [contentRowPass] at h
    | cons c cs =>
      by_cases hex : exceedsMaxWidth c w = true
      · cases ht : truncateGo c w with
        | none => simp [contentRowPass, hex, htc, ht] at h
        | some t =>
          cases hp : contentRowPass cfg tbl header (k + 1) ws cs with
          | none => simp [contentRowPass, hex, htc, ht, hp] at h
          | some res2 =>
            obtain ⟨l2, nc2, m2⟩ := res2
            have hm2 : m2 = false := ih cs (k + 1) (l2, nc2, m2) hp
            simp [contentRowPass, hex, htc, ht, hp] at h
            rw [← h]
            simp [hm2]
      · cases hp : contentRowPass cfg tbl header (k + 1) ws cs with
        | none => simp [contentRowPass, hex, hp] at h
        | some res2 =>
          obtain ⟨l2, nc2, m2⟩ := res2
          have hm2 : m2 = false := ih cs (k + 1) (l2, nc2, m2) hp
          simp [contentRowPass, hex, hp] at h
          rw [← h]
          simp [hm2]

/-! ## C10: the multi-line content loop terminates -/

/-- C10: every successful wrap of an overlong cell returns a remainder
strictly shorter in runes than its input; in truncating mode a pass
leaves only empty remainders, so the loop never repeats; and with all
column widths at least 2 (wrapping) resp. 3 (truncating, set via
`truncateCells`), the `stringifyContentRow` loop terminates with a
value, emitting one physical line per pass. -/
theorem c10_stringifyContentRow_terminates :
    (∀ (s : Str) (w : Nat) (firstLine remainder : Str),
      wrapGo s w = some (firstLine, remainder) → w < runeWidth s →
      remainder.length < s.length) ∧
    (∀ (cfg : Config) (tbl : Table) (header : Bool) (k : Nat) (cw : List Nat)
        (content : List Str) (res : Str × List Str × Bool),
      tbl.truncateCells = true →
      contentRowPass cfg tbl header k cw content = some res → res.2.2 = false) ∧
    (∀ (cfg : Config) (tbl : Table) (header : Bool) (cw : List Nat) (content : List Str),
      cw.length = content.length →
      (∀ w ∈ cw, (if tbl.truncateCells then 3 else 2) ≤ w) →
      (stringifyContentRow cfg tbl cw content header).isSome) := by
  refine ⟨?_, ?_, ?_⟩
  · intro s w firstLine remainder hw hlt
    exact wrapGo_rem_lt s w firstLine remainder hw hlt
  · intro cfg tbl header k cw content res htc hpass
    exact contentRowPass_truncate_no_more cfg tbl header htc cw content k res hpass
  · intro cfg tbl header cw content hlen hwide
    refine stringifyContentRow_isSome cfg tbl cw content header (le_of_eq hlen) ?_
    intro j hj
    refine Or.inr ?_
    have hg : cw.getD j 0 = cw[j] := by
      rw [List.getD_eq_getElem?_getD, List.getElem?_eq_getElem hj]
      rfl
    rw [hg]
    exact hwide _ (List.getElem_mem hj)

/-- Witness for C10: a 3-rune cell in a width-2 column wraps onto two
lines and the loop terminates; and the mid-word wrap shrinks
remainders. -/
theorem c10_stringifyContentRow_terminates_witness :
    (['b', 'c'] : Str).length < (['a', 'b', 'c'] : Str).length ∧
    (stringifyContentRow defaultConfig newTable [2] [['a', 'b', 'c']] false).isSome :=
  ⟨c10_stringifyContentRow_terminates.1 ['a', 'b', 'c'] 2 ['a', '-'] ['b', 'c']
     (by decide) (by decide),
   c10_stringifyContentRow_terminates.2.2 defaultConfig newTable false [2] [['a', 'b', 'c']]
     (by decide) (by decide)⟩

/-! ## C3: the totality gap at small maximum column widths -/

/-- C3: `ChangeDefaults` accepts every positive `MaxColWidth`, but with
`maxColWidth = 2` and truncation a wider body cell makes `render` panic
(negative slice bound in `truncate`), and with `maxColWidth = 1` under
wrapping a wider cell with a non-space first rune panics (index `-1` in
`wrap`); `render` is total — for every shape-consistent table — once
`maxColWidth ≥ 3` when truncating, resp. `maxColWidth ≥ 2` when
wrapping. -/
theorem c3_maxColWidth_totality_gap :
    (∀ n : Int, 0 < n →
      (changeDefaults { emptyDefaults with MaxColWidth := n } defaultConfig).maxColWidth =
        n.toNat) ∧
    (∀ (s : Str) (w : Nat), w < 3 → w < runeWidth s → truncateGo s w = none) ∧
    (∀ s : Str, 1 < runeWidth s → goIsSpace (s.getD 0 ' ') = false → wrapGo s 1 = none) ∧
    (render { defaultConfig with maxColWidth := 2 }
      { newTable with rows := [[['a', 'b', 'c']]], truncateCells := true }).isNone ∧
    (render { defaultConfig with maxColWidth := 1 }
      { newTable with rows := [[['a', 'b']]] }).isNone ∧
    (∀ (cfg : Config) (tbl : Table), tbl.truncateCells = true → 3 ≤ cfg.maxColWidth →
      (∀ r ∈ tbl.rows, r.length = (tbl.rows.headD []).length) →
      (render cfg tbl).isSome) ∧
    (∀ (cfg : Config) (tbl : Table), tbl.truncateCells = false → 2 ≤ cfg.maxColWidth →
      (∀ r ∈ tbl.rows, r.length = (tbl.rows.headD []).length) →
      (render cfg tbl).isSome) := by
  refine ⟨?_, ?_, ?_, by decide, by decide, ?_, ?_⟩
  · intro n hn
    simp [changeDefaults, emptyDefaults, singleWidthString, doubleWidthString, hn]
  · intro s w hw hs
    have hx : exceedsMaxWidth s w = true := by
      simp [exceedsMaxWidth]
      exact hs
    simp [truncateGo, hx, hw]
  · intro s hlen hsp
    have hx : exceedsMaxWidth s 1 = true := by
      simp [exceedsMaxWidth]
      exact hlen
    have h0 : (0 : Nat) < s.length := by
      unfold runeWidth at hlen
      omega
    have hg : s[0]? = some s[0] := List.getElem?_eq_getElem h0
    have hgd : s.getD 0 ' ' = s[0] := by
      rw [List.getD_eq_getElem?_getD, hg]
      rfl
    rw [hgd] at hsp
    simp [wrapGo, hx, hg, hsp]
  · intro cfg tbl ht h3 hsh
    refine render_isSome cfg tbl ?_ hsh
    rw [ht]
    simpa using h3
  · intro cfg tbl ht h2 hsh
    refine render_isSome cfg tbl ?_ hsh
    rw [ht]
    simpa using h2

/-- Witness for C3: `ChangeDefaults` accepts `MaxColWidth = 1`, and
`render` is total at `maxColWidth = 3` with truncation on a wide cell. -/
theorem c3_maxColWidth_totality_gap_witness :
    (changeDefaults { emptyDefaults with MaxColWidth := 1 } defaultConfig).maxColWidth =
      (1 : Int).toNat ∧
    (render { defaultConfig with maxColWidth := 3 }
      { newTable with rows := [[['a', 'b', 'c', 'd']]], truncateCells := true }).isSome :=
  ⟨c3_maxColWidth_totality_gap.1 1 (by decide),
   c3_maxColWidth_totality_gap.2.2.2.2.2.1 { defaultConfig with maxColWidth := 3 }
     { newTable with rows := [[['a', 'b', 'c', 'd']]], truncateCells := true }
     rfl (by decide) (by decide)⟩

/-! ## C1: auto-merge rendering corrupts the stored rows -/

/-- C1 fails on the code: rendering the Go test's auto-merge table once
overwrites the stored first body row (the `priorRow` slice aliases
`tbl.rows[numHeaderRows]` and `autoMergeRows` writes through it), and a
second `render` call returns a different string than the first. -/
theorem c1_render_corrupts_stored_rows :
    (renderAfter defaultConfig mergeExample).map Table.rows =
      some [[['b', 'a', 'z'], ['q', 'u', 'u', 'x']],
            [['f', 'o', 'o'], ['q', 'u', 'u', 'x']],
            [['b', 'a', 'z'], ['q', 'u', 'u', 'x']]] ∧
    mergeExample.rows ≠
      [[['b', 'a', 'z'], ['q', 'u', 'u', 'x']],
       [['f', 'o', 'o'], ['q', 'u', 'u', 'x']],
       [['b', 'a', 'z'], ['q', 'u', 'u', 'x']]] ∧
    (renderString defaultConfig mergeExample).isSome ∧
    renderStringTwice defaultConfig mergeExample ≠ renderString defaultConfig mergeExample ∧
    (renderStringTwice defaultConfig mergeExample).isSome := by
  exact ⟨by decide, by decide, by decide, by decide, by decide⟩

end Tablewriter
